import Mathlib

/-!
Verification of the basalt Markdown parser
(`basalt-core/src/markdown/parser.rs`).

The parser consumes a finite stream of `(Event, Range)` pairs produced by
the external `pulldown_cmark` lexer and builds a list of AST nodes.  We
embed the event type, the AST node types, and the recursive
`Parser::parse_events` / `Parser::parse_tag` algorithm.  The lexer itself
is an external dependency, excluded from the core by the specification;
where a claim quantifies over source strings we model the lexer's output
event stream from the specification's collaborator interface (section 6
of the spec) and from the concrete streams pinned down by the repository's
own doc examples and tests.

Machine integers (`u64` list start indices, `usize` byte offsets) are
modelled as `Nat`; the parser performs no arithmetic on them, so no
overflow can occur.

In Rust, `parse_events` and `parse_tag` are mutually recursive over a
shared iterator.  We embed the pair as a single function with the body of
`parse_tag` inlined at the `Event::Start` arm, indexed by a fuel
parameter in which the recursion is structural (so that concrete runs
compute by kernel reduction).  One unit of fuel is spent per consumed
event, hence fuel = stream length always suffices; the theorem
`parse_eventsF_stable` below shows the result is the same for every
sufficient fuel, so the wrapper `parse_events` is the unique total
semantics of the Rust loop.
-/

namespace Basalt

/-- Inline style of a text run (`Style` in the source; only `Code` exists). -/
inductive Style where
  | Code
deriving Repr, DecidableEq

/-- `TaskListItemKind`: a checkbox item checked via `- [x]` or unchecked via `- [ ]`. -/
inductive TaskListItemKind where
  | Checked
  | Unchecked
deriving Repr, DecidableEq

/-- `HeadingLevel` (H1..H6). -/
inductive HeadingLevel where
  | H1 | H2 | H3 | H4 | H5 | H6
deriving Repr, DecidableEq

/-- `BlockQuoteKind`: specialized callout block quote variants. -/
inductive BlockQuoteKind where
  | Note | Tip | Important | Warning | Caution
deriving Repr, DecidableEq

/-- `ListKind`: ordered with a start index, or unordered. -/
inductive ListKind where
  | Ordered (start : Nat)
  | Unordered
deriving Repr, DecidableEq

/-- `TextNode`: literal content plus an optional inline style. -/
structure TextNode where
  content : String
  style : Option Style
deriving Repr, DecidableEq

/-- `Text`: a wrapper holding a list of `TextNode`s (`Text(Vec<TextNode>)`). -/
abbrev Text := List TextNode

/-- A byte range `start..end` into the source text.  The `end` field is
named `stop` here because `end` is a Lean keyword. -/
structure Range where
  start : Nat
  stop : Nat
deriving Repr, DecidableEq

mutual
/-- The Markdown AST node enumeration (`MarkdownNode` in the source). -/
inductive MarkdownNode where
  | Heading (level : HeadingLevel) (text : Text)
  | Paragraph (text : Text)
  | BlockQuote (kind : Option BlockQuoteKind) (nodes : NodeList)
  | CodeBlock (lang : Option String) (text : Text)
  | List (kind : ListKind) (nodes : NodeList)
  | Item (text : Text)
  | TaskListItem (kind : TaskListItemKind) (text : Text)

/-- `Node`: a `MarkdownNode` paired with the `source_range` it covers. -/
inductive Node where
  | mk (markdown_node : MarkdownNode) (source_range : Range)

/-- `Vec<Node>` in the source, as a mutual inductive so that all
recursions over the tree stay structural. -/
inductive NodeList where
  | nil
  | cons (head : Node) (tail : NodeList)
end

/-- Projection of the `source_range` field. -/
def Node.source_range : Node → Range
  | .mk _ r => r

/-- Projection of the `markdown_node` field. -/
def Node.markdown_node : Node → MarkdownNode
  | .mk m _ => m

/-- `Vec::push`: append a node at the end. -/
def NodeList.push : NodeList → Node → NodeList
  | .nil, n => .cons n .nil
  | .cons h t, n => .cons h (t.push n)

/-- Does `p` hold of every node in the list? -/
def NodeList.all (p : Node → Bool) : NodeList → Bool
  | .nil => true
  | .cons h t => p h && NodeList.all p t

/-- `pulldown_cmark::CodeBlockKind`: indented, or fenced with an info
string (the language identifier written after the opening fence). -/
inductive CodeBlockKind where
  | Indented
  | Fenced (info : String)
deriving Repr, DecidableEq

/-- The subset of `pulldown_cmark::Tag` the parser distinguishes.
`HtmlBlock`, `Table`, `Emphasis` and `Link` stand for the tags that
`parse_tag` maps to `None` (its wildcard arm). -/
inductive Tag where
  | Paragraph
  | Heading (level : HeadingLevel)
  | BlockQuote (kind : Option BlockQuoteKind)
  | CodeBlock (kind : CodeBlockKind)
  | List (start : Option Nat)
  | Item
  | HtmlBlock
  | Table
  | Emphasis
  | Link
deriving Repr, DecidableEq

/-- The corresponding `pulldown_cmark::TagEnd` variants. -/
inductive TagEnd where
  | Paragraph
  | Heading (level : HeadingLevel)
  | BlockQuote (kind : Option BlockQuoteKind)
  | CodeBlock
  | List (ordered : Bool)
  | Item
  | HtmlBlock
  | Table
  | Emphasis
  | Link
deriving Repr, DecidableEq

/-- `matches_tag_end` from the source: `true` iff the `Tag` should be
closed upon encountering the given `TagEnd` (shape match, payloads
ignored, exactly the six handled pairs). -/
def matches_tag_end (tag : Tag) (tag_end : TagEnd) : Bool :=
  match tag, tag_end with
  | .Paragraph, .Paragraph => true
  | .Heading _, .Heading _ => true
  | .BlockQuote _, .BlockQuote _ => true
  | .CodeBlock _, .CodeBlock => true
  | .List _, .List _ => true
  | .Item, .Item => true
  | _, _ => false

/-- The subset of `pulldown_cmark::Event` the parser distinguishes.
`Html`, `SoftBreak` and `Rule` stand for the events the wildcard arm of
`parse_events` silently skips. -/
inductive Ev where
  | Start (tag : Tag)
  | End (tag_end : TagEnd)
  | Text (s : String)
  | Code (s : String)
  | TaskListMarker (checked : Bool)
  | Html (s : String)
  | SoftBreak
  | Rule
deriving Repr, DecidableEq

/-- One element of the lexer's output stream: an event paired with the
byte range of source text it corresponds to. -/
abbrev PEvent := Ev × Range

mutual
/-- `Node::push_text_node`: push a `TextNode` into the node's text
buffer; for `BlockQuote`/`List` the run is pushed into the last child
node, if any. -/
def push_text_node (tn : TextNode) : Node → Node
  | .mk (.Paragraph t) r => .mk (.Paragraph (t.concat tn)) r
  | .mk (.Heading lv t) r => .mk (.Heading lv (t.concat tn)) r
  | .mk (.CodeBlock l t) r => .mk (.CodeBlock l (t.concat tn)) r
  | .mk (.TaskListItem k t) r => .mk (.TaskListItem k (t.concat tn)) r
  | .mk (.Item t) r => .mk (.Item (t.concat tn)) r
  | .mk (.List k ns) r => .mk (.List k (push_text_last tn ns)) r
  | .mk (.BlockQuote k ns) r => .mk (.BlockQuote k (push_text_last tn ns)) r

/-- `nodes.last_mut()` followed by `push_text_node`: modify the last
node of the list, if any (`if let Some(node) = nodes.last_mut()`). -/
def push_text_last (tn : TextNode) : NodeList → NodeList
  | .nil => .nil
  | .cons h .nil => .cons (push_text_node tn h) .nil
  | .cons h (.cons h2 t) => .cons h (push_text_last tn (.cons h2 t))
end

/-- The task list item kind selected by the marker's `checked` flag. -/
def task_list_item_of (checked : Bool) : TaskListItemKind :=
  if checked then .Checked else .Unchecked

/-- The `Event::TaskListMarker` arm of `parse_events`: replace the last
node of the list (if any) in place by a `TaskListItem` with the same
`source_range` and default (empty) text. -/
def taskify_last (checked : Bool) : NodeList → NodeList
  | .nil => .nil
  | .cons (.mk _ r) .nil =>
    .cons (.mk (.TaskListItem (task_list_item_of checked) []) r) .nil
  | .cons h (.cons h2 t) => .cons h (taskify_last checked (.cons h2 t))

/-- Fuel-indexed embedding of `Parser::parse_events`, with the body of
`Parser::parse_tag` inlined at the `Event::Start` arm (in the source the
two functions are mutually recursive over the shared iterator; inlining
keeps the Lean recursion structural in the fuel).  One unit of fuel is
spent per consumed event. -/
def parse_eventsF : Nat → List PEvent → Option Tag → NodeList → NodeList × List PEvent
  | 0, events, _, nodes => (nodes, events)
  | _ + 1, [], _, nodes => (nodes, [])
  | fuel + 1, (event, range) :: rest, current_tag, nodes =>
    match event with
    | .Start tag =>
      -- body of `Parser::parse_tag`, inlined:
      match tag with
      | .BlockQuote kind =>
        let p := parse_eventsF fuel rest (some (.BlockQuote kind)) .nil
        parse_eventsF fuel p.2 current_tag
          (nodes.push (.mk (.BlockQuote kind p.1) range))
      | .List start =>
        let p := parse_eventsF fuel rest (some (.List start)) .nil
        parse_eventsF fuel p.2 current_tag
          (nodes.push (.mk (.List ((start.map ListKind.Ordered).getD .Unordered) p.1) range))
      | .Heading level =>
        parse_eventsF fuel rest current_tag (nodes.push (.mk (.Heading level []) range))
      | .CodeBlock _ =>
        parse_eventsF fuel rest current_tag (nodes.push (.mk (.CodeBlock none []) range))
      | .Paragraph =>
        parse_eventsF fuel rest current_tag (nodes.push (.mk (.Paragraph []) range))
      | .Item =>
        parse_eventsF fuel rest current_tag (nodes.push (.mk (.Item []) range))
      | .HtmlBlock | .Table | .Emphasis | .Link =>
        parse_eventsF fuel rest current_tag nodes
    | .End tag_end =>
      match current_tag with
      | some tag =>
        if matches_tag_end tag tag_end then (nodes, rest)
        else parse_eventsF fuel rest current_tag nodes
      | none => parse_eventsF fuel rest current_tag nodes
    | .Text s => parse_eventsF fuel rest current_tag (push_text_last ⟨s, none⟩ nodes)
    | .Code s => parse_eventsF fuel rest current_tag (push_text_last ⟨s, some .Code⟩ nodes)
    | .TaskListMarker checked =>
      parse_eventsF fuel rest current_tag (taskify_last checked nodes)
    | .Html _ | .SoftBreak | .Rule => parse_eventsF fuel rest current_tag nodes

/-- `Parser::parse_events`: the fuel-free semantics, running the fuel
version with fuel = stream length (always sufficient, see
`parse_eventsF_stable`).  Returns the built nodes together with the
events remaining after this recursion level. -/
def parse_events (events : List PEvent) (current_tag : Option Tag) (nodes : NodeList) :
    NodeList × List PEvent :=
  parse_eventsF events.length events current_tag nodes

/-- `Parser::parse` (and `from_str`): consume the whole stream with no
enclosing tag and return the top-level nodes. -/
def parse (events : List PEvent) : NodeList :=
  (parse_events events none .nil).1

/-- Text consisting of a single unstyled run (`Text::from(&str)`). -/
def textOf (s : String) : Text := [⟨s, none⟩]

/-- Convert a plain list of nodes to a `NodeList` (notation helper). -/
def nlist : List Node → NodeList
  | [] => .nil
  | n :: ns => .cons n (nlist ns)

/-- Modelled from the spec: the event stream the external CommonMark/GFM
lexer (`pulldown_cmark`, excluded from the core as an assumed external
dependency) emits for the input `"# My Heading\n\nSome text."`, per the
collaborator interface of spec section 6 and the byte ranges pinned by
the repository's doc example for `from_str`. -/
def eventsHeadingPara : List PEvent :=
  [ (.Start (.Heading .H1), ⟨0, 13⟩),
    (.Text "My Heading", ⟨2, 12⟩),
    (.End (.Heading .H1), ⟨0, 13⟩),
    (.Start .Paragraph, ⟨14, 24⟩),
    (.Text "Some text.", ⟨14, 24⟩),
    (.End .Paragraph, ⟨14, 24⟩) ]

/-- Modelled from the spec: the event stream the external lexer emits for
the input `"- [ ] Task\n- [x] Completed task\n- [?] Completed task\n"`.
The first two items carry task-list markers; the third does not, since
`?` is not a recognized checked marker in the base grammar, so its
bracket text arrives as plain text.  Byte ranges follow the repository's
`test_parse` expectations. -/
def eventsTaskList : List PEvent :=
  [ (.Start (.List none), ⟨0, 53⟩),
    (.Start .Item, ⟨0, 11⟩),
    (.TaskListMarker false, ⟨2, 5⟩),
    (.Text "Task", ⟨6, 10⟩),
    (.End .Item, ⟨0, 11⟩),
    (.Start .Item, ⟨11, 32⟩),
    (.TaskListMarker true, ⟨13, 16⟩),
    (.Text "Completed task", ⟨17, 31⟩),
    (.End .Item, ⟨11, 32⟩),
    (.Start .Item, ⟨32, 53⟩),
    (.Text "[?] Completed task", ⟨34, 52⟩),
    (.End .Item, ⟨32, 53⟩),
    (.End (.List false), ⟨0, 53⟩) ]

/-- Modelled from the spec: the event stream the external lexer emits for
the input `"> > > Deep Quote"` — three nested block quote opens, a
paragraph with the text, then the matching closes innermost-first. -/
def eventsDeepQuote : List PEvent :=
  [ (.Start (.BlockQuote none), ⟨0, 16⟩),
    (.Start (.BlockQuote none), ⟨2, 16⟩),
    (.Start (.BlockQuote none), ⟨4, 16⟩),
    (.Start .Paragraph, ⟨6, 16⟩),
    (.Text "Deep Quote", ⟨6, 16⟩),
    (.End .Paragraph, ⟨6, 16⟩),
    (.End (.BlockQuote none), ⟨4, 16⟩),
    (.End (.BlockQuote none), ⟨2, 16⟩),
    (.End (.BlockQuote none), ⟨0, 16⟩) ]

/-! ### Balanced event forests (model of the lexer's output shape)

Modelled from the spec: the external lexer emits, for any source string,
an ordered finite sequence of events in which every container-open event
has a matching close event and everything in between belongs to that
container (spec sections 2 and 6).  An `EvForest` is such a balanced
stream in tree form; `flattenF` enumerates the streams the lexer can
produce. -/

/-- The `TagEnd` the lexer pairs with a given `Tag`'s close event
(`pulldown_cmark`'s `Tag::to_end`). -/
def Tag.endTag : Tag → TagEnd
  | .Paragraph => .Paragraph
  | .Heading lv => .Heading lv
  | .BlockQuote k => .BlockQuote k
  | .CodeBlock _ => .CodeBlock
  | .List st => .List st.isSome
  | .Item => .Item
  | .HtmlBlock => .HtmlBlock
  | .Table => .Table
  | .Emphasis => .Emphasis
  | .Link => .Link

/-- The events that are neither open nor close events. -/
inductive AtomEv where
  | Text (s : String)
  | Code (s : String)
  | TaskListMarker (checked : Bool)
  | Html (s : String)
  | SoftBreak
  | Rule
deriving Repr, DecidableEq

/-- Injection of atom events into the event type. -/
def AtomEv.toEv : AtomEv → Ev
  | .Text s => .Text s
  | .Code s => .Code s
  | .TaskListMarker b => .TaskListMarker b
  | .Html s => .Html s
  | .SoftBreak => .SoftBreak
  | .Rule => .Rule

mutual
/-- One balanced unit of the lexer's output: a container with its open
range, close range and balanced children, or a single atom event. -/
inductive EvTree where
  | cont (tag : Tag) (openRange closeRange : Range) (children : EvForest)
  | atom (a : AtomEv) (r : Range)

/-- A sequence of balanced units. -/
inductive EvForest where
  | nil
  | cons (head : EvTree) (tail : EvForest)
end

mutual
/-- Flatten a balanced unit back into the event stream it denotes. -/
def flattenT : EvTree → List PEvent
  | .cont t ro rc ch => (.Start t, ro) :: (flattenF ch ++ [(.End t.endTag, rc)])
  | .atom a r => [(a.toEv, r)]

/-- Flatten a forest into the event stream it denotes. -/
def flattenF : EvForest → List PEvent
  | .nil => []
  | .cons h t => flattenT h ++ flattenF t
end

/-- Tags the parser turns into a node (`parse_tag` returns `Some`). -/
def Tag.isHandled : Tag → Bool
  | .Paragraph | .Heading _ | .BlockQuote _ | .CodeBlock _ | .List _ | .Item => true
  | .HtmlBlock | .Table | .Emphasis | .Link => false

/-- Atom events the wildcard arm of `parse_events` silently skips. -/
def AtomEv.isIgnored : AtomEv → Bool
  | .Html _ | .SoftBreak | .Rule => true
  | .Text _ | .Code _ | .TaskListMarker _ => false

mutual
/-- The unit consists only of unsupported constructs: containers with
unhandled tags, holding only ignored atom events or further unsupported
containers. -/
def unsupportedT : EvTree → Bool
  | .cont t _ _ ch => !t.isHandled && unsupportedF ch
  | .atom a _ => a.isIgnored

/-- `unsupportedT` over a forest. -/
def unsupportedF : EvForest → Bool
  | .nil => true
  | .cons h t => unsupportedT h && unsupportedF t
end

/-- Modelled from the spec: the event stream the external lexer emits
for the input `"<div>raw</div>"` — a lone HTML block containing one raw
HTML event. -/
def htmlBlockForest : EvForest :=
  .cons (.cont .HtmlBlock ⟨0, 14⟩ ⟨0, 14⟩
    (.cons (.atom (.Html "<div>raw</div>") ⟨0, 14⟩) .nil)) .nil

/-! ### Predicates for the range-containment and lang invariants -/

mutual
/-- Every `CodeBlock` in this node, recursively, has `lang = none`. -/
def code_lang_none : Node → Bool
  | .mk (.CodeBlock lang _) _ => lang.isNone
  | .mk (.BlockQuote _ ns) _ => code_lang_none_list ns
  | .mk (.List _ ns) _ => code_lang_none_list ns
  | .mk (.Heading _ _) _ => true
  | .mk (.Paragraph _) _ => true
  | .mk (.Item _) _ => true
  | .mk (.TaskListItem _ _) _ => true

/-- `code_lang_none` over a node list. -/
def code_lang_none_list : NodeList → Bool
  | .nil => true
  | .cons h t => code_lang_none h && code_lang_none_list t
end

/-- `inner` lies within `outer`: `outer.start <= inner.start` and
`inner.end <= outer.end`. -/
def rangeLE (inner outer : Range) : Bool :=
  decide (outer.start ≤ inner.start) && decide (inner.stop ≤ outer.stop)

/-- `rangeLE` against an optional outer bound (`none` = unbounded). -/
def rangeLEO (inner : Range) : Option Range → Bool
  | none => true
  | some outer => rangeLE inner outer

mutual
/-- Range containment: every child of a `List`/`BlockQuote` node lies
within its parent's source range, recursively at every depth. -/
def containedT : Node → Bool
  | .mk (.BlockQuote _ ns) r => childrenOK r ns
  | .mk (.List _ ns) r => childrenOK r ns
  | .mk (.Heading _ _) _ => true
  | .mk (.Paragraph _) _ => true
  | .mk (.CodeBlock _ _) _ => true
  | .mk (.Item _) _ => true
  | .mk (.TaskListItem _ _) _ => true

/-- Each node of the list lies within `R` and is itself contained. -/
def childrenOK (R : Range) : NodeList → Bool
  | .nil => true
  | .cons n t => rangeLE n.source_range R && containedT n && childrenOK R t
end

/-- The node satisfies range containment and lies within the optional
outer bound. -/
def goodUnder (R : Option Range) (n : Node) : Bool :=
  containedT n && rangeLEO n.source_range R

mutual
/-- Every container-open range in the unit lies within `R`. -/
def startRangesInT (R : Option Range) : EvTree → Bool
  | .cont _ ro _ ch => rangeLEO ro R && startRangesInF R ch
  | .atom _ _ => true

/-- `startRangesInT` over a forest. -/
def startRangesInF (R : Option Range) : EvForest → Bool
  | .nil => true
  | .cons h t => startRangesInT R h && startRangesInF R t
end

mutual
/-- Well-ranged (the lexer's range guarantee, modelled from the spec):
each container's open range bounds the open ranges of all events inside
it, recursively. -/
def wellRangedT : EvTree → Bool
  | .cont _ ro _ ch => startRangesInF (some ro) ch && wellRangedF ch
  | .atom _ _ => true

/-- `wellRangedT` over a forest. -/
def wellRangedF : EvForest → Bool
  | .nil => true
  | .cons h t => wellRangedT h && wellRangedF t
end

/-- The only current-tag values `parse_events` is ever entered with:
`none` at top level, or a block quote / list tag (the two recursion
points of `parse_tag`). -/
def recursionTag : Option Tag → Bool
  | none => true
  | some (.BlockQuote _) => true
  | some (.List _) => true
  | some _ => false

/-- Is this the close event of one of the two recursive container
shapes? -/
def TagEnd.isContainerEnd : TagEnd → Bool
  | .BlockQuote _ => true
  | .List _ => true
  | _ => false

/-- A concrete well-ranged forest: a block quote holding a paragraph. -/
def quoteParaForest : EvForest :=
  .cons (.cont (.BlockQuote none) ⟨0, 16⟩ ⟨0, 16⟩
    (.cons (.cont .Paragraph ⟨2, 16⟩ ⟨2, 16⟩
      (.cons (.atom (.Text "hi") ⟨2, 16⟩) .nil)) .nil)) .nil

/-! ### Helper lemmas -/

/-- Each recursion level of the parser only consumes events: the
remaining stream it returns is no longer than its input stream. -/
theorem parse_eventsF_remaining_le :
    ∀ (fuel : Nat) (events : List PEvent) (current_tag : Option Tag) (nodes : NodeList),
      (parse_eventsF fuel events current_tag nodes).2.length ≤ events.length := by
  intro fuel
  induction fuel with
  | zero => intro events ct nodes; exact le_rfl
  | succ n ih =>
    intro events ct nodes
    cases events with
    | nil => simp [parse_eventsF]
    | cons er rest =>
      obtain ⟨event, range⟩ := er
      cases event with
      | Start tag =>
        cases tag with
        | BlockQuote kind =>
          simp only [parse_eventsF]
          exact Nat.le_succ_of_le (le_trans (ih _ _ _) (ih _ _ _))
        | List start =>
          simp only [parse_eventsF]
          exact Nat.le_succ_of_le (le_trans (ih _ _ _) (ih _ _ _))
        | Heading _ => exact Nat.le_succ_of_le (ih rest ct _)
        | CodeBlock _ => exact Nat.le_succ_of_le (ih rest ct _)
        | Paragraph => exact Nat.le_succ_of_le (ih rest ct _)
        | Item => exact Nat.le_succ_of_le (ih rest ct _)
        | HtmlBlock => exact Nat.le_succ_of_le (ih rest ct _)
        | Table => exact Nat.le_succ_of_le (ih rest ct _)
        | Emphasis => exact Nat.le_succ_of_le (ih rest ct _)
        | Link => exact Nat.le_succ_of_le (ih rest ct _)
      | End tag_end =>
        cases ct with
        | none => exact Nat.le_succ_of_le (ih rest none _)
        | some tag =>
          simp only [parse_eventsF]
          by_cases hm : matches_tag_end tag tag_end
          · simp [hm]
          · simp only [hm, if_false, Bool.false_eq_true]
            exact Nat.le_succ_of_le (ih rest (some tag) _)
      | Text s => exact Nat.le_succ_of_le (ih rest ct _)
      | Code s => exact Nat.le_succ_of_le (ih rest ct _)
      | TaskListMarker checked => exact Nat.le_succ_of_le (ih rest ct _)
      | Html s => exact Nat.le_succ_of_le (ih rest ct _)
      | SoftBreak => exact Nat.le_succ_of_le (ih rest ct _)
      | Rule => exact Nat.le_succ_of_le (ih rest ct _)

/-- Fuel irrelevance: any two fuels of at least the stream length give
the same result, so `parse_events` (fuel = stream length) is the unique
total semantics of the Rust loop. -/
theorem parse_eventsF_stable :
    ∀ (k : Nat) (events : List PEvent), events.length ≤ k →
      ∀ n m : Nat, events.length ≤ n → events.length ≤ m →
      ∀ (current_tag : Option Tag) (nodes : NodeList),
        parse_eventsF n events current_tag nodes
          = parse_eventsF m events current_tag nodes := by
  intro k
  induction k with
  | zero =>
    intro events h n m _ _ ct nodes
    have heq : events = [] := List.eq_nil_of_length_eq_zero (Nat.le_zero.mp h)
    subst heq
    cases n <;> cases m <;> rfl
  | succ k ih =>
    intro events h n m hn hm ct nodes
    cases events with
    | nil => cases n <;> cases m <;> rfl
    | cons er rest =>
      obtain ⟨event, range⟩ := er
      cases n with
      | zero => simp at hn
      | succ n =>
        cases m with
        | zero => simp at hm
        | succ m =>
          have hr : rest.length ≤ k := by simp at h; omega
          have hrn : rest.length ≤ n := by simp at hn; omega
          have hrm : rest.length ≤ m := by simp at hm; omega
          cases event with
          | Start tag =>
            cases tag with
            | BlockQuote kind =>
              simp only [parse_eventsF]
              rw [ih rest hr n m hrn hrm]
              exact ih _ (le_trans (parse_eventsF_remaining_le _ _ _ _) hr) n m
                (le_trans (parse_eventsF_remaining_le _ _ _ _) hrn)
                (le_trans (parse_eventsF_remaining_le _ _ _ _) hrm) _ _
            | List start =>
              simp only [parse_eventsF]
              rw [ih rest hr n m hrn hrm]
              exact ih _ (le_trans (parse_eventsF_remaining_le _ _ _ _) hr) n m
                (le_trans (parse_eventsF_remaining_le _ _ _ _) hrn)
                (le_trans (parse_eventsF_remaining_le _ _ _ _) hrm) _ _
            | Heading _ => exact ih rest hr n m hrn hrm _ _
            | CodeBlock _ => exact ih rest hr n m hrn hrm _ _
            | Paragraph => exact ih rest hr n m hrn hrm _ _
            | Item => exact ih rest hr n m hrn hrm _ _
            | HtmlBlock => exact ih rest hr n m hrn hrm _ _
            | Table => exact ih rest hr n m hrn hrm _ _
            | Emphasis => exact ih rest hr n m hrn hrm _ _
            | Link => exact ih rest hr n m hrn hrm _ _
          | End tag_end =>
            cases ct with
            | none => exact ih rest hr n m hrn hrm _ _
            | some tag =>
              simp only [parse_eventsF]
              by_cases hmt : matches_tag_end tag tag_end
              · simp [hmt]
              · simp only [hmt, if_false, Bool.false_eq_true]
                exact ih rest hr n m hrn hrm _ _
          | Text s => exact ih rest hr n m hrn hrm _ _
          | Code s => exact ih rest hr n m hrn hrm _ _
          | TaskListMarker checked => exact ih rest hr n m hrn hrm _ _
          | Html s => exact ih rest hr n m hrn hrm _ _
          | SoftBreak => exact ih rest hr n m hrn hrm _ _
          | Rule => exact ih rest hr n m hrn hrm _ _

/-- Unfolding step for a block quote open: recurse with the block quote
as current tag, then continue after the consumed segment with the new
node pushed. -/
theorem parse_events_start_blockquote (kind : Option BlockQuoteKind) (r : Range)
    (rest : List PEvent) (current_tag : Option Tag) (nodes : NodeList) :
    parse_events ((.Start (.BlockQuote kind), r) :: rest) current_tag nodes
      = parse_events (parse_events rest (some (.BlockQuote kind)) .nil).2 current_tag
          (nodes.push (.mk (.BlockQuote kind
            (parse_events rest (some (.BlockQuote kind)) .nil).1) r)) := by
  show parse_eventsF (rest.length + 1) _ _ _ = _
  simp only [parse_eventsF]
  exact parse_eventsF_stable _ _ le_rfl _ _
    (parse_eventsF_remaining_le _ _ _ _) le_rfl _ _

/-- Unfolding step for a list open: recurse with the list as current
tag, then continue after the consumed segment with the new node pushed. -/
theorem parse_events_start_list (start : Option Nat) (r : Range)
    (rest : List PEvent) (current_tag : Option Tag) (nodes : NodeList) :
    parse_events ((.Start (.List start), r) :: rest) current_tag nodes
      = parse_events (parse_events rest (some (.List start)) .nil).2 current_tag
          (nodes.push (.mk (.List ((start.map ListKind.Ordered).getD .Unordered)
            (parse_events rest (some (.List start)) .nil).1) r)) := by
  show parse_eventsF (rest.length + 1) _ _ _ = _
  simp only [parse_eventsF]
  exact parse_eventsF_stable _ _ le_rfl _ _
    (parse_eventsF_remaining_le _ _ _ _) le_rfl _ _

/-- Replacing the last node after a push replaces exactly the pushed node. -/
theorem taskify_last_push (checked : Bool) (m : MarkdownNode) (r : Range) :
    ∀ nodes : NodeList,
      taskify_last checked (nodes.push (.mk m r))
        = nodes.push (.mk (.TaskListItem (task_list_item_of checked) []) r)
  | .nil => rfl
  | .cons (.mk _ _) .nil => rfl
  | .cons h (.cons h2 t2) => by
    have ih := taskify_last_push checked m r (.cons h2 t2)
    simp only [NodeList.push, taskify_last] at ih ⊢
    rw [ih]

/-- `Vec::push` distributes over `all`. -/
theorem NodeList.all_push (p : Node → Bool) (n : Node) :
    ∀ ns : NodeList, (ns.push n).all p = (ns.all p && p n)
  | .nil => by simp [NodeList.push, NodeList.all]
  | .cons h t => by
    simp [NodeList.push, NodeList.all, NodeList.all_push p n t, Bool.and_assoc]

/-- Pushing a text run into the last node preserves any predicate that
`push_text_node` preserves. -/
theorem NodeList.all_push_text_last (p : Node → Bool) (tn : TextNode)
    (hp : ∀ n, p (push_text_node tn n) = p n) :
    ∀ ns : NodeList, (push_text_last tn ns).all p = ns.all p
  | .nil => rfl
  | .cons h .nil => by simp [push_text_last, NodeList.all, hp h]
  | .cons h (.cons h2 t) => by
    simp [push_text_last, NodeList.all,
      NodeList.all_push_text_last p tn hp (.cons h2 t)]

/-- Replacing the last node by a `TaskListItem` preserves any predicate
that holds of every `TaskListItem` with empty text. -/
theorem NodeList.all_taskify_last (p : Node → Bool) (checked : Bool)
    (hp : ∀ (k : TaskListItemKind) (r : Range), p (.mk (.TaskListItem k []) r) = true) :
    ∀ ns : NodeList, ns.all p = true → (taskify_last checked ns).all p = true
  | .nil, _ => rfl
  | .cons (.mk _ r) .nil, _ => by
    simp [taskify_last, NodeList.all, hp (task_list_item_of checked) r]
  | .cons h (.cons h2 t), hh => by
    simp only [NodeList.all, Bool.and_eq_true] at hh
    simp only [taskify_last, NodeList.all, Bool.and_eq_true]
    exact ⟨hh.1, NodeList.all_taskify_last p checked hp (.cons h2 t)
      (by simp only [NodeList.all, Bool.and_eq_true]; exact hh.2)⟩

/-! ### Single-event step lemmas -/

/-- A start event whose tag `parse_tag` does not handle produces no node
and does not recurse. -/
theorem parse_events_start_unhandled (tg : Tag) (ht : tg.isHandled = false)
    (r : Range) (rest : List PEvent) (current_tag : Option Tag) (nodes : NodeList) :
    parse_events ((.Start tg, r) :: rest) current_tag nodes
      = parse_events rest current_tag nodes := by
  cases tg <;> first | rfl | simp [Tag.isHandled] at ht

/-- An ignored atom event is skipped. -/
theorem parse_events_atom_ignored (a : AtomEv) (ha : a.isIgnored = true)
    (r : Range) (rest : List PEvent) (current_tag : Option Tag) (nodes : NodeList) :
    parse_events ((a.toEv, r) :: rest) current_tag nodes
      = parse_events rest current_tag nodes := by
  cases a <;> first | rfl | simp [AtomEv.isIgnored] at ha

/-- Close-event step inside a container level. -/
theorem parse_events_close_step (te : TagEnd) (r : Range) (rest : List PEvent)
    (tg : Tag) (nodes : NodeList) :
    parse_events ((.End te, r) :: rest) (some tg) nodes
      = (if matches_tag_end tg te then (nodes, rest)
         else parse_events rest (some tg) nodes) := rfl

/-- Close-event step at the top level: always dropped. -/
theorem parse_events_close_top (te : TagEnd) (r : Range) (rest : List PEvent)
    (nodes : NodeList) :
    parse_events ((.End te, r) :: rest) none nodes = parse_events rest none nodes := rfl

/-! ### Claim theorems: unsupported constructs vanish (C7) -/

/-- At the top level (no enclosing tag), a balanced forest of
unsupported constructs is consumed without appending any node. -/
theorem parse_events_unsupported :
    ∀ (k : Nat) (f : EvForest), (flattenF f).length ≤ k → unsupportedF f = true →
      ∀ (tail : List PEvent) (nodes : NodeList),
        parse_events (flattenF f ++ tail) none nodes = parse_events tail none nodes := by
  intro k
  induction k with
  | zero =>
    intro f hk hu tail nodes
    cases f with
    | nil => rfl
    | cons h t =>
      exfalso
      cases h <;> simp [flattenF, flattenT] at hk
  | succ k ih =>
    intro f hk hu tail nodes
    cases f with
    | nil => rfl
    | cons h t =>
      cases h with
      | atom a r =>
        simp only [unsupportedF, unsupportedT, Bool.and_eq_true] at hu
        have hlen : (flattenF t).length ≤ k := by
          simp [flattenF, flattenT] at hk; omega
        calc parse_events (flattenF (.cons (.atom a r) t) ++ tail) none nodes
            = parse_events ((a.toEv, r) :: (flattenF t ++ tail)) none nodes := by
              simp [flattenF, flattenT]
          _ = parse_events (flattenF t ++ tail) none nodes :=
              parse_events_atom_ignored a hu.1 r _ none nodes
          _ = parse_events tail none nodes := ih t hlen hu.2 tail nodes
      | cont tg ro rc ch =>
        simp only [unsupportedF, unsupportedT, Bool.and_eq_true, Bool.not_eq_true'] at hu
        have hlch : (flattenF ch).length ≤ k := by
          simp [flattenF, flattenT] at hk; omega
        have hlt : (flattenF t).length ≤ k := by
          simp [flattenF, flattenT] at hk; omega
        calc parse_events (flattenF (.cons (.cont tg ro rc ch) t) ++ tail) none nodes
            = parse_events ((.Start tg, ro) ::
                (flattenF ch ++ ((.End tg.endTag, rc) :: (flattenF t ++ tail)))) none nodes := by
              simp [flattenF, flattenT]
          _ = parse_events (flattenF ch ++ ((.End tg.endTag, rc) :: (flattenF t ++ tail)))
                none nodes := parse_events_start_unhandled tg hu.1.1 ro _ none nodes
          _ = parse_events ((.End tg.endTag, rc) :: (flattenF t ++ tail)) none nodes :=
              ih ch hlch hu.1.2 _ nodes
          _ = parse_events (flattenF t ++ tail) none nodes :=
              parse_events_close_top tg.endTag rc _ nodes
          _ = parse_events tail none nodes := ih t hlt hu.2 tail nodes

/-- C7: for every balanced input stream consisting only of unsupported
constructs (unhandled container tags such as an HTML block, with only
ignored events inside), `parse` returns the empty node sequence — the
constructs produce no node at all and raise no error. -/
theorem parse_unsupported_empty (f : EvForest) (h : unsupportedF f = true) :
    parse (flattenF f) = .nil := by
  have step := parse_events_unsupported (flattenF f).length f le_rfl h [] .nil
  simp only [List.append_nil] at step
  show (parse_events (flattenF f) none .nil).1 = .nil
  rw [step]
  rfl

/-- Witness for C7 at the `"<div>raw</div>"` stream. -/
theorem parse_unsupported_empty_witness :
    unsupportedF htmlBlockForest = true ∧ parse (flattenF htmlBlockForest) = .nil :=
  ⟨rfl, parse_unsupported_empty htmlBlockForest rfl⟩

/-! ### Claim theorems: totality (C8) -/

/-- C8: `parse` is a total function over every finite event stream.  The
parser is embedded as a total Lean function; this theorem carries the
termination content: the recursion is fuel-stable (any fuel of at least
the stream length — one unit per consumed event — yields the same
result, so the computation completes within the finite stream bound and
never hits the fuel-exhaustion branch), each recursion level consumes
events monotonically, and `parse` returns the node sequence built at the
top level, never an error value. -/
theorem parse_total (events : List PEvent) (current_tag : Option Tag) (nodes : NodeList)
    (fuel : Nat) (h : events.length ≤ fuel) :
    parse_eventsF fuel events current_tag nodes = parse_events events current_tag nodes
  ∧ (parse_events events current_tag nodes).2.length ≤ events.length
  ∧ parse events = (parse_events events none .nil).1 :=
  ⟨parse_eventsF_stable events.length events le_rfl fuel events.length h le_rfl
      current_tag nodes,
   parse_eventsF_remaining_le events.length events current_tag nodes,
   rfl⟩

/-- Witness for C8 at a concrete stream and fuel. -/
theorem parse_total_witness :
    eventsDeepQuote.length ≤ 20
  ∧ (parse_eventsF 20 eventsDeepQuote none .nil = parse_events eventsDeepQuote none .nil
     ∧ (parse_events eventsDeepQuote none .nil).2.length ≤ eventsDeepQuote.length
     ∧ parse eventsDeepQuote = (parse_events eventsDeepQuote none .nil).1) :=
  ⟨by decide, parse_total eventsDeepQuote none .nil 20 (by decide)⟩

/-! ### Claim theorems: code block language (C10) -/

theorem code_lang_none_list_eq_all :
    ∀ ns : NodeList, code_lang_none_list ns = ns.all code_lang_none
  | .nil => rfl
  | .cons h t => by
    simp [code_lang_none_list, NodeList.all, code_lang_none_list_eq_all t]

mutual
theorem code_lang_none_push_text (tn : TextNode) :
    ∀ n : Node, code_lang_none (push_text_node tn n) = code_lang_none n
  | .mk (.Paragraph _) _ => rfl
  | .mk (.Heading _ _) _ => rfl
  | .mk (.CodeBlock _ _) _ => rfl
  | .mk (.TaskListItem _ _) _ => rfl
  | .mk (.Item _) _ => rfl
  | .mk (.List _ ns) _ => by
    simp [push_text_node, code_lang_none, code_lang_none_push_text_list tn ns]
  | .mk (.BlockQuote _ ns) _ => by
    simp [push_text_node, code_lang_none, code_lang_none_push_text_list tn ns]

theorem code_lang_none_push_text_list (tn : TextNode) :
    ∀ ns : NodeList, code_lang_none_list (push_text_last tn ns) = code_lang_none_list ns
  | .nil => rfl
  | .cons h .nil => by
    simp [push_text_last, code_lang_none_list, code_lang_none_push_text tn h]
  | .cons h (.cons h2 t) => by
    simp [push_text_last, code_lang_none_list,
      code_lang_none_push_text_list tn (.cons h2 t)]
end

/-- Every node `parse_events` ever accumulates keeps the `lang = none`
invariant (the `Tag::CodeBlock(_)` arm of `parse_tag` discards the
fence's info string and always sets `lang: None`). -/
theorem parse_eventsF_code_lang_none :
    ∀ (fuel : Nat) (events : List PEvent) (current_tag : Option Tag) (nodes : NodeList),
      nodes.all code_lang_none = true →
      (parse_eventsF fuel events current_tag nodes).1.all code_lang_none = true := by
  intro fuel
  induction fuel with
  | zero => intro events ct nodes h; exact h
  | succ n ih =>
    intro events ct nodes h
    cases events with
    | nil => exact h
    | cons er rest =>
      obtain ⟨event, range⟩ := er
      cases event with
      | Start tag =>
        cases tag with
        | BlockQuote kind =>
          simp only [parse_eventsF]
          refine ih _ _ _ ?_
          rw [NodeList.all_push, h, Bool.true_and]
          show code_lang_none_list _ = true
          rw [code_lang_none_list_eq_all]
          exact ih _ _ _ rfl
        | List start =>
          simp only [parse_eventsF]
          refine ih _ _ _ ?_
          rw [NodeList.all_push, h, Bool.true_and]
          show code_lang_none_list _ = true
          rw [code_lang_none_list_eq_all]
          exact ih _ _ _ rfl
        | Heading _ =>
          refine ih _ _ _ ?_
          rw [NodeList.all_push, h]; rfl
        | CodeBlock _ =>
          refine ih _ _ _ ?_
          rw [NodeList.all_push, h]; rfl
        | Paragraph =>
          refine ih _ _ _ ?_
          rw [NodeList.all_push, h]; rfl
        | Item =>
          refine ih _ _ _ ?_
          rw [NodeList.all_push, h]; rfl
        | HtmlBlock => exact ih _ _ _ h
        | Table => exact ih _ _ _ h
        | Emphasis => exact ih _ _ _ h
        | Link => exact ih _ _ _ h
      | End tag_end =>
        cases ct with
        | none => exact ih _ _ _ h
        | some tag =>
          simp only [parse_eventsF]
          by_cases hmt : matches_tag_end tag tag_end
          · simp only [hmt, if_true]; exact h
          · simp only [hmt, if_false, Bool.false_eq_true]; exact ih _ _ _ h
      | Text s =>
        refine ih _ _ _ ?_
        rw [NodeList.all_push_text_last _ _ (code_lang_none_push_text _), h]
      | Code s =>
        refine ih _ _ _ ?_
        rw [NodeList.all_push_text_last _ _ (code_lang_none_push_text _), h]
      | TaskListMarker checked =>
        refine ih _ _ _ ?_
        exact NodeList.all_taskify_last _ checked (fun _ _ => rfl) _ h
      | Html s => exact ih _ _ _ h
      | SoftBreak => exact ih _ _ _ h
      | Rule => exact ih _ _ _ h

/-- C10: for every event stream, every `CodeBlock` node in the sequence
returned by `parse` (at top level or nested inside any container) has
`lang = none`, even when the source code fence carried a language
identifier (`Tag.CodeBlock (.Fenced info)` events are covered by the
quantifier and their info string is discarded). -/
theorem parse_code_lang_none (events : List PEvent) :
    (parse events).all code_lang_none = true :=
  parse_eventsF_code_lang_none events.length events none .nil rfl

/-! ### Claim theorems: concrete scenarios -/

/-- C4: `parse` on the event stream of `"# My Heading\n\nSome text."`
returns exactly a `Heading{H1, "My Heading"}` with source range `0..13`
followed by a `Paragraph{"Some text."}` with source range `14..24`. -/
theorem parse_heading_paragraph_scenario :
    parse eventsHeadingPara =
      nlist [ .mk (.Heading .H1 (textOf "My Heading")) ⟨0, 13⟩,
              .mk (.Paragraph (textOf "Some text.")) ⟨14, 24⟩ ] := rfl

/-- C1: `parse` on the event stream of
`"- [ ] Task\n- [x] Completed task\n- [?] Completed task\n"` returns
exactly one top-level unordered `List` node whose children, in order,
are an unchecked `TaskListItem` with text `"Task"`, a checked
`TaskListItem` with text `"Completed task"`, and a plain `Item` with
text `"[?] Completed task"` — the third line is not converted to a task
item. -/
theorem parse_task_list_scenario :
    parse eventsTaskList =
      nlist [ .mk (.List .Unordered (nlist
        [ .mk (.TaskListItem .Unchecked (textOf "Task")) ⟨0, 11⟩,
          .mk (.TaskListItem .Checked (textOf "Completed task")) ⟨11, 32⟩,
          .mk (.Item (textOf "[?] Completed task")) ⟨32, 53⟩ ])) ⟨0, 53⟩ ] := rfl

/-- C5: `parse` on the event stream of `"> > > Deep Quote"` produces
three nested `BlockQuote` nodes, each the sole child of the one above,
with the innermost containing a single `Paragraph` whose text is
`"Deep Quote"`. -/
theorem parse_deep_quote_scenario :
    parse eventsDeepQuote =
      nlist [ .mk (.BlockQuote none (nlist
        [ .mk (.BlockQuote none (nlist
          [ .mk (.BlockQuote none (nlist
            [ .mk (.Paragraph (textOf "Deep Quote")) ⟨6, 16⟩ ])) ⟨4, 16⟩ ])) ⟨2, 16⟩ ])) ⟨0, 16⟩ ]
    := rfl

/-! ### Claim theorems: event-level behavior -/

/-- C3: a task-marker event immediately following the opening of an
`Item` node replaces the just-opened `Item` in place by a `TaskListItem`
of the matching checked/unchecked kind.  The first conjunct shows the
`Item` opened at range `r` is pushed as `Item` with range `r` and empty
text; the second shows that with the marker following, the net effect is
the same node position holding a `TaskListItem` with the same range `r`
and the same (empty) text — range and accumulated text are preserved. -/
theorem task_marker_replaces_item (r rq : Range) (checked : Bool)
    (rest : List PEvent) (current_tag : Option Tag) (nodes : NodeList) :
    (∀ tail : List PEvent, parse_events ((.Start .Item, r) :: tail) current_tag nodes
      = parse_events tail current_tag (nodes.push (.mk (.Item []) r)))
  ∧ parse_events ((.Start .Item, r) :: (.TaskListMarker checked, rq) :: rest)
        current_tag nodes
      = parse_events rest current_tag
          (nodes.push (.mk (.TaskListItem (task_list_item_of checked) []) r)) := by
  refine ⟨fun _ => rfl, ?_⟩
  show parse_eventsF (rest.length + 1) ((.TaskListMarker checked, rq) :: rest)
        current_tag (nodes.push (.mk (.Item []) r)) = _
  simp only [parse_eventsF, taskify_last_push]
  rfl

/-- C6: a close event matching the container tag passed into the current
recursion level makes the level return its accumulated node list (and
the stream position after the close event) immediately; a close event
that does not match — including every close event at the top level,
where no tag is passed in — is dropped silently and parsing continues
unchanged. -/
theorem close_event_cases (tag_end : TagEnd) (r : Range) (rest : List PEvent)
    (tag : Tag) (nodes : NodeList) :
    parse_events ((.End tag_end, r) :: rest) (some tag) nodes
      = (if matches_tag_end tag tag_end then (nodes, rest)
         else parse_events rest (some tag) nodes)
  ∧ parse_events ((.End tag_end, r) :: rest) none nodes
      = parse_events rest none nodes := ⟨rfl, rfl⟩

/-- C9: a text or inline-code event arriving when no node has yet been
appended at the current recursion level is silently discarded (first two
conjuncts), and a text run routed into a `BlockQuote` or `List` node
whose child list is empty is discarded rather than attached to the
container itself (last two conjuncts). -/
theorem text_without_target_discarded (s : String) (r : Range)
    (rest : List PEvent) (current_tag : Option Tag) :
    parse_events ((.Text s, r) :: rest) current_tag .nil
      = parse_events rest current_tag .nil
  ∧ parse_events ((.Code s, r) :: rest) current_tag .nil
      = parse_events rest current_tag .nil
  ∧ (∀ (tn : TextNode) (k : Option BlockQuoteKind) (R : Range),
      push_text_node tn (.mk (.BlockQuote k .nil) R) = .mk (.BlockQuote k .nil) R)
  ∧ (∀ (tn : TextNode) (k : ListKind) (R : Range),
      push_text_node tn (.mk (.List k .nil) R) = .mk (.List k .nil) R) :=
  ⟨rfl, rfl, fun _ _ _ => rfl, fun _ _ _ => rfl⟩

/-! ### Claim theorems: range containment (C2) -/

theorem push_text_node_source_range (tn : TextNode) :
    ∀ n : Node, (push_text_node tn n).source_range = n.source_range
  | .mk (.Paragraph _) _ => rfl
  | .mk (.Heading _ _) _ => rfl
  | .mk (.CodeBlock _ _) _ => rfl
  | .mk (.TaskListItem _ _) _ => rfl
  | .mk (.Item _) _ => rfl
  | .mk (.List _ _) _ => rfl
  | .mk (.BlockQuote _ _) _ => rfl

mutual
theorem containedT_push_text (tn : TextNode) :
    ∀ n : Node, containedT (push_text_node tn n) = containedT n
  | .mk (.Paragraph _) _ => rfl
  | .mk (.Heading _ _) _ => rfl
  | .mk (.CodeBlock _ _) _ => rfl
  | .mk (.TaskListItem _ _) _ => rfl
  | .mk (.Item _) _ => rfl
  | .mk (.List _ ns) r => by
    simp [push_text_node, containedT, childrenOK_push_text tn r ns]
  | .mk (.BlockQuote _ ns) r => by
    simp [push_text_node, containedT, childrenOK_push_text tn r ns]

theorem childrenOK_push_text (tn : TextNode) (R : Range) :
    ∀ ns : NodeList, childrenOK R (push_text_last tn ns) = childrenOK R ns
  | .nil => rfl
  | .cons n .nil => by
    simp [push_text_last, childrenOK, containedT_push_text tn n,
      push_text_node_source_range tn n]
  | .cons n (.cons n2 t) => by
    simp [push_text_last, childrenOK, childrenOK_push_text tn R (.cons n2 t)]
end

/-- Pushing a text run anywhere into a node changes no range and no
child-list structure, hence preserves `goodUnder`. -/
theorem goodUnder_push_text (R : Option Range) (tn : TextNode) (n : Node) :
    goodUnder R (push_text_node tn n) = goodUnder R n := by
  simp [goodUnder, containedT_push_text, push_text_node_source_range]

/-- Replacing the last node by a `TaskListItem` keeps its range and has
no children, hence preserves `goodUnder` of the whole list. -/
theorem all_goodUnder_taskify_last (R : Option Range) (checked : Bool) :
    ∀ ns : NodeList, ns.all (goodUnder R) = true →
      (taskify_last checked ns).all (goodUnder R) = true
  | .nil, _ => rfl
  | .cons n .nil, h => by
    obtain ⟨md, r⟩ := n
    have h2 : rangeLEO r R = true := by
      simp only [NodeList.all, goodUnder, Node.source_range, Bool.and_true,
        Bool.and_eq_true] at h
      exact h.2
    simp only [taskify_last, NodeList.all, goodUnder, containedT,
      Node.source_range, Bool.and_true, Bool.true_and]
    exact h2
  | .cons h1 (.cons h2 t), hh => by
    simp only [NodeList.all, Bool.and_eq_true] at hh
    simp only [taskify_last, NodeList.all, Bool.and_eq_true]
    exact ⟨hh.1, all_goodUnder_taskify_last R checked (.cons h2 t)
      (by simp only [NodeList.all, Bool.and_eq_true]; exact hh.2)⟩

/-- A list of nodes each contained and bounded by `R` is a valid child
list for a container with range `R`. -/
theorem childrenOK_of_all (R : Range) :
    ∀ ns : NodeList, ns.all (goodUnder (some R)) = true → childrenOK R ns = true
  | .nil, _ => rfl
  | .cons n t, h => by
    simp only [NodeList.all, Bool.and_eq_true, goodUnder, rangeLEO] at h
    simp only [childrenOK, Bool.and_eq_true]
    exact ⟨⟨h.1.2, h.1.1⟩, childrenOK_of_all R t h.2⟩

mutual
theorem startRangesInT_none : ∀ h : EvTree, startRangesInT none h = true
  | .cont _ _ _ ch => by simp [startRangesInT, rangeLEO, startRangesInF_none ch]
  | .atom _ _ => rfl

theorem startRangesInF_none : ∀ f : EvForest, startRangesInF none f = true
  | .nil => rfl
  | .cons h t => by
    simp [startRangesInF, startRangesInT_none h, startRangesInF_none t]
end

theorem all_containedT_of_goodUnder :
    ∀ ns : NodeList, ns.all (goodUnder none) = true → ns.all containedT = true
  | .nil, _ => rfl
  | .cons n t, h => by
    simp only [NodeList.all, Bool.and_eq_true, goodUnder, rangeLEO, Bool.and_true] at h
    simp only [NodeList.all, Bool.and_eq_true]
    exact ⟨h.1, all_containedT_of_goodUnder t h.2⟩

/-- Inside a block quote or list level (or at top level), the close
event of any non-container shape is dropped. -/
theorem parse_events_close_dropped (ct : Option Tag) (hct : recursionTag ct = true)
    (te : TagEnd) (hte : te.isContainerEnd = false) (r : Range)
    (rest : List PEvent) (nodes : NodeList) :
    parse_events ((.End te, r) :: rest) ct nodes = parse_events rest ct nodes := by
  cases ct with
  | none => rfl
  | some tg =>
    rw [parse_events_close_step]
    have hm : matches_tag_end tg te = false := by
      cases tg <;> cases te <;>
        first
          | rfl
          | (simp only [recursionTag] at hct; exact Bool.noConfusion hct)
          | (simp only [TagEnd.isContainerEnd] at hte; exact Bool.noConfusion hte)
    simp [hm]

/-- Main invariant for C2: running the parser over a balanced,
well-ranged forest (open ranges bounded by the optional `R`) followed by
any tail consumes exactly the forest's events and accumulates only nodes
that satisfy range containment and lie within `R`. -/
theorem parse_events_wellRanged :
    ∀ (k : Nat) (f : EvForest), (flattenF f).length ≤ k →
      ∀ (R : Option Range) (tail : List PEvent) (ct : Option Tag) (nodes : NodeList),
        recursionTag ct = true → wellRangedF f = true → startRangesInF R f = true →
        nodes.all (goodUnder R) = true →
        ∃ nodes2 : NodeList,
          parse_events (flattenF f ++ tail) ct nodes = parse_events tail ct nodes2
          ∧ nodes2.all (goodUnder R) = true := by
  intro k
  induction k with
  | zero =>
    intro f hk R tail ct nodes _ _ _ hn
    cases f with
    | nil => exact ⟨nodes, rfl, hn⟩
    | cons h t => exfalso; cases h <;> simp [flattenF, flattenT] at hk
  | succ k ih =>
    intro f hk R tail ct nodes hct hw hs hn
    cases f with
    | nil => exact ⟨nodes, rfl, hn⟩
    | cons hd t =>
      have hw' : wellRangedT hd = true ∧ wellRangedF t = true := by
        simpa [wellRangedF, Bool.and_eq_true] using hw
      have hs' : startRangesInT R hd = true ∧ startRangesInF R t = true := by
        simpa [startRangesInF, Bool.and_eq_true] using hs
      cases hd with
      | atom a r =>
        have hlt : (flattenF t).length ≤ k := by
          simp [flattenF, flattenT] at hk; omega
        cases a with
        | Text s =>
          obtain ⟨ns2, heq, hall⟩ := ih t hlt R tail ct (push_text_last ⟨s, none⟩ nodes)
            hct hw'.2 hs'.2
            (by rw [NodeList.all_push_text_last _ _ (goodUnder_push_text R ⟨s, none⟩)]; exact hn)
          exact ⟨ns2, by rw [show parse_events (flattenF (.cons (.atom (.Text s) r) t) ++ tail) ct nodes = parse_events (flattenF t ++ tail) ct (push_text_last ⟨s, none⟩ nodes) from rfl, heq], hall⟩
        | Code s =>
          obtain ⟨ns2, heq, hall⟩ := ih t hlt R tail ct (push_text_last ⟨s, some .Code⟩ nodes)
            hct hw'.2 hs'.2
            (by rw [NodeList.all_push_text_last _ _ (goodUnder_push_text R ⟨s, some .Code⟩)]; exact hn)
          exact ⟨ns2, by rw [show parse_events (flattenF (.cons (.atom (.Code s) r) t) ++ tail) ct nodes = parse_events (flattenF t ++ tail) ct (push_text_last ⟨s, some .Code⟩ nodes) from rfl, heq], hall⟩
        | TaskListMarker checked =>
          obtain ⟨ns2, heq, hall⟩ := ih t hlt R tail ct (taskify_last checked nodes)
            hct hw'.2 hs'.2 (all_goodUnder_taskify_last R checked nodes hn)
          exact ⟨ns2, by rw [show parse_events (flattenF (.cons (.atom (.TaskListMarker checked) r) t) ++ tail) ct nodes = parse_events (flattenF t ++ tail) ct (taskify_last checked nodes) from rfl, heq], hall⟩
        | Html s =>
          obtain ⟨ns2, heq, hall⟩ := ih t hlt R tail ct nodes hct hw'.2 hs'.2 hn
          exact ⟨ns2, by rw [show parse_events (flattenF (.cons (.atom (.Html s) r) t) ++ tail) ct nodes = parse_events (flattenF t ++ tail) ct nodes from rfl, heq], hall⟩
        | SoftBreak =>
          obtain ⟨ns2, heq, hall⟩ := ih t hlt R tail ct nodes hct hw'.2 hs'.2 hn
          exact ⟨ns2, by rw [show parse_events (flattenF (.cons (.atom .SoftBreak r) t) ++ tail) ct nodes = parse_events (flattenF t ++ tail) ct nodes from rfl, heq], hall⟩
        | Rule =>
          obtain ⟨ns2, heq, hall⟩ := ih t hlt R tail ct nodes hct hw'.2 hs'.2 hn
          exact ⟨ns2, by rw [show parse_events (flattenF (.cons (.atom .Rule r) t) ++ tail) ct nodes = parse_events (flattenF t ++ tail) ct nodes from rfl, heq], hall⟩
      | cont tg ro rc ch =>
        have hlch : (flattenF ch).length ≤ k := by
          simp [flattenF, flattenT] at hk; omega
        have hlt : (flattenF t).length ≤ k := by
          simp [flattenF, flattenT] at hk; omega
        have hflat : flattenF (.cons (.cont tg ro rc ch) t) ++ tail
            = (.Start tg, ro) ::
              (flattenF ch ++ ((.End tg.endTag, rc) :: (flattenF t ++ tail))) := by
          simp [flattenF, flattenT]
        have hsr : rangeLEO ro R = true ∧ startRangesInF R ch = true := by
          simpa [startRangesInT, Bool.and_eq_true] using hs'.1
        have hwr : startRangesInF (some ro) ch = true ∧ wellRangedF ch = true := by
          simpa [wellRangedT, Bool.and_eq_true] using hw'.1
        cases tg with
        | BlockQuote kind =>
          obtain ⟨cs, hceq, hcall⟩ := ih ch hlch (some ro)
            ((.End (Tag.endTag (.BlockQuote kind)), rc) :: (flattenF t ++ tail))
            (some (.BlockQuote kind)) .nil rfl hwr.2 hwr.1 rfl
          have hP : parse_events
              (flattenF ch ++ ((.End (Tag.endTag (.BlockQuote kind)), rc) :: (flattenF t ++ tail)))
              (some (.BlockQuote kind)) .nil = (cs, flattenF t ++ tail) := by
            rw [hceq]; rfl
          have hnode : goodUnder R (.mk (.BlockQuote kind cs) ro) = true := by
            simp only [goodUnder, containedT, Node.source_range, Bool.and_eq_true]
            exact ⟨childrenOK_of_all ro cs hcall, hsr.1⟩
          obtain ⟨ns2, heq, hall⟩ := ih t hlt R tail ct
            (nodes.push (.mk (.BlockQuote kind cs) ro)) hct hw'.2 hs'.2
            (by rw [NodeList.all_push, hn, hnode]; rfl)
          refine ⟨ns2, ?_, hall⟩
          rw [hflat, parse_events_start_blockquote, hP]
          dsimp only
          rw [heq]
        | List st =>
          obtain ⟨cs, hceq, hcall⟩ := ih ch hlch (some ro)
            ((.End (Tag.endTag (.List st)), rc) :: (flattenF t ++ tail))
            (some (.List st)) .nil rfl hwr.2 hwr.1 rfl
          have hP : parse_events
              (flattenF ch ++ ((.End (Tag.endTag (.List st)), rc) :: (flattenF t ++ tail)))
              (some (.List st)) .nil = (cs, flattenF t ++ tail) := by
            rw [hceq]; rfl
          have hnode : goodUnder R
              (.mk (.List ((st.map ListKind.Ordered).getD .Unordered) cs) ro) = true := by
            simp only [goodUnder, containedT, Node.source_range, Bool.and_eq_true]
            exact ⟨childrenOK_of_all ro cs hcall, hsr.1⟩
          obtain ⟨ns2, heq, hall⟩ := ih t hlt R tail ct
            (nodes.push (.mk (.List ((st.map ListKind.Ordered).getD .Unordered) cs) ro))
            hct hw'.2 hs'.2
            (by rw [NodeList.all_push, hn, hnode]; rfl)
          refine ⟨ns2, ?_, hall⟩
          rw [hflat, parse_events_start_list, hP]
          dsimp only
          rw [heq]
        | Paragraph =>
          have hnode : goodUnder R (.mk (.Paragraph []) ro) = true := by
            simp only [goodUnder, containedT, Bool.true_and, Node.source_range]
            exact hsr.1
          obtain ⟨ns1, heq1, hall1⟩ := ih ch hlch R
            ((.End (Tag.endTag .Paragraph), rc) :: (flattenF t ++ tail)) ct
            (nodes.push (.mk (.Paragraph []) ro)) hct hwr.2 hsr.2
            (by rw [NodeList.all_push, hn, hnode]; rfl)
          obtain ⟨ns2, heq2, hall2⟩ := ih t hlt R tail ct ns1 hct hw'.2 hs'.2 hall1
          refine ⟨ns2, ?_, hall2⟩
          rw [hflat,
            show parse_events ((.Start Tag.Paragraph, ro) ::
                (flattenF ch ++ ((.End (Tag.endTag .Paragraph), rc) :: (flattenF t ++ tail))))
                ct nodes
              = parse_events (flattenF ch ++ ((.End (Tag.endTag .Paragraph), rc) ::
                (flattenF t ++ tail))) ct (nodes.push (.mk (.Paragraph []) ro)) from rfl,
            heq1, parse_events_close_dropped ct hct (Tag.endTag .Paragraph) rfl, heq2]
        | Heading lv =>
          have hnode : goodUnder R (.mk (.Heading lv []) ro) = true := by
            simp only [goodUnder, containedT, Bool.true_and, Node.source_range]
            exact hsr.1
          obtain ⟨ns1, heq1, hall1⟩ := ih ch hlch R
            ((.End (Tag.endTag (.Heading lv)), rc) :: (flattenF t ++ tail)) ct
            (nodes.push (.mk (.Heading lv []) ro)) hct hwr.2 hsr.2
            (by rw [NodeList.all_push, hn, hnode]; rfl)
          obtain ⟨ns2, heq2, hall2⟩ := ih t hlt R tail ct ns1 hct hw'.2 hs'.2 hall1
          refine ⟨ns2, ?_, hall2⟩
          rw [hflat,
            show parse_events ((.Start (Tag.Heading lv), ro) ::
                (flattenF ch ++ ((.End (Tag.endTag (.Heading lv)), rc) :: (flattenF t ++ tail))))
                ct nodes
              = parse_events (flattenF ch ++ ((.End (Tag.endTag (.Heading lv)), rc) ::
                (flattenF t ++ tail))) ct (nodes.push (.mk (.Heading lv []) ro)) from rfl,
            heq1, parse_events_close_dropped ct hct (Tag.endTag (.Heading lv)) rfl, heq2]
        | CodeBlock ck =>
          have hnode : goodUnder R (.mk (.CodeBlock none []) ro) = true := by
            simp only [goodUnder, containedT, Bool.true_and, Node.source_range]
            exact hsr.1
          obtain ⟨ns1, heq1, hall1⟩ := ih ch hlch R
            ((.End (Tag.endTag (.CodeBlock ck)), rc) :: (flattenF t ++ tail)) ct
            (nodes.push (.mk (.CodeBlock none []) ro)) hct hwr.2 hsr.2
            (by rw [NodeList.all_push, hn, hnode]; rfl)
          obtain ⟨ns2, heq2, hall2⟩ := ih t hlt R tail ct ns1 hct hw'.2 hs'.2 hall1
          refine ⟨ns2, ?_, hall2⟩
          rw [hflat,
            show parse_events ((.Start (Tag.CodeBlock ck), ro) ::
                (flattenF ch ++ ((.End (Tag.endTag (.CodeBlock ck)), rc) :: (flattenF t ++ tail))))
                ct nodes
              = parse_events (flattenF ch ++ ((.End (Tag.endTag (.CodeBlock ck)), rc) ::
                (flattenF t ++ tail))) ct (nodes.push (.mk (.CodeBlock none []) ro)) from rfl,
            heq1, parse_events_close_dropped ct hct (Tag.endTag (.CodeBlock ck)) rfl, heq2]
        | Item =>
          have hnode : goodUnder R (.mk (.Item []) ro) = true := by
            simp only [goodUnder, containedT, Bool.true_and, Node.source_range]
            exact hsr.1
          obtain ⟨ns1, heq1, hall1⟩ := ih ch hlch R
            ((.End (Tag.endTag .Item), rc) :: (flattenF t ++ tail)) ct
            (nodes.push (.mk (.Item []) ro)) hct hwr.2 hsr.2
            (by rw [NodeList.all_push, hn, hnode]; rfl)
          obtain ⟨ns2, heq2, hall2⟩ := ih t hlt R tail ct ns1 hct hw'.2 hs'.2 hall1
          refine ⟨ns2, ?_, hall2⟩
          rw [hflat,
            show parse_events ((.Start Tag.Item, ro) ::
                (flattenF ch ++ ((.End (Tag.endTag .Item), rc) :: (flattenF t ++ tail))))
                ct nodes
              = parse_events (flattenF ch ++ ((.End (Tag.endTag .Item), rc) ::
                (flattenF t ++ tail))) ct (nodes.push (.mk (.Item []) ro)) from rfl,
            heq1, parse_events_close_dropped ct hct (Tag.endTag .Item) rfl, heq2]
        | HtmlBlock =>
          obtain ⟨ns1, heq1, hall1⟩ := ih ch hlch R
            ((.End (Tag.endTag .HtmlBlock), rc) :: (flattenF t ++ tail)) ct nodes
            hct hwr.2 hsr.2 hn
          obtain ⟨ns2, heq2, hall2⟩ := ih t hlt R tail ct ns1 hct hw'.2 hs'.2 hall1
          refine ⟨ns2, ?_, hall2⟩
          rw [hflat,
            show parse_events ((.Start Tag.HtmlBlock, ro) ::
                (flattenF ch ++ ((.End (Tag.endTag .HtmlBlock), rc) :: (flattenF t ++ tail))))
                ct nodes
              = parse_events (flattenF ch ++ ((.End (Tag.endTag .HtmlBlock), rc) ::
                (flattenF t ++ tail))) ct nodes from rfl,
            heq1, parse_events_close_dropped ct hct (Tag.endTag .HtmlBlock) rfl, heq2]
        | Table =>
          obtain ⟨ns1, heq1, hall1⟩ := ih ch hlch R
            ((.End (Tag.endTag .Table), rc) :: (flattenF t ++ tail)) ct nodes
            hct hwr.2 hsr.2 hn
          obtain ⟨ns2, heq2, hall2⟩ := ih t hlt R tail ct ns1 hct hw'.2 hs'.2 hall1
          refine ⟨ns2, ?_, hall2⟩
          rw [hflat,
            show parse_events ((.Start Tag.Table, ro) ::
                (flattenF ch ++ ((.End (Tag.endTag .Table), rc) :: (flattenF t ++ tail))))
                ct nodes
              = parse_events (flattenF ch ++ ((.End (Tag.endTag .Table), rc) ::
                (flattenF t ++ tail))) ct nodes from rfl,
            heq1, parse_events_close_dropped ct hct (Tag.endTag .Table) rfl, heq2]
        | Emphasis =>
          obtain ⟨ns1, heq1, hall1⟩ := ih ch hlch R
            ((.End (Tag.endTag .Emphasis), rc) :: (flattenF t ++ tail)) ct nodes
            hct hwr.2 hsr.2 hn
          obtain ⟨ns2, heq2, hall2⟩ := ih t hlt R tail ct ns1 hct hw'.2 hs'.2 hall1
          refine ⟨ns2, ?_, hall2⟩
          rw [hflat,
            show parse_events ((.Start Tag.Emphasis, ro) ::
                (flattenF ch ++ ((.End (Tag.endTag .Emphasis), rc) :: (flattenF t ++ tail))))
                ct nodes
              = parse_events (flattenF ch ++ ((.End (Tag.endTag .Emphasis), rc) ::
                (flattenF t ++ tail))) ct nodes from rfl,
            heq1, parse_events_close_dropped ct hct (Tag.endTag .Emphasis) rfl, heq2]
        | Link =>
          obtain ⟨ns1, heq1, hall1⟩ := ih ch hlch R
            ((.End (Tag.endTag .Link), rc) :: (flattenF t ++ tail)) ct nodes
            hct hwr.2 hsr.2 hn
          obtain ⟨ns2, heq2, hall2⟩ := ih t hlt R tail ct ns1 hct hw'.2 hs'.2 hall1
          refine ⟨ns2, ?_, hall2⟩
          rw [hflat,
            show parse_events ((.Start Tag.Link, ro) ::
                (flattenF ch ++ ((.End (Tag.endTag .Link), rc) :: (flattenF t ++ tail))))
                ct nodes
              = parse_events (flattenF ch ++ ((.End (Tag.endTag .Link), rc) ::
                (flattenF t ++ tail))) ct nodes from rfl,
            heq1, parse_events_close_dropped ct hct (Tag.endTag .Link) rfl, heq2]

/-- C2: for every balanced, well-ranged input event stream (the shape
the external lexer guarantees), every node `N` in the tree returned by
`parse` and every child `C` of `N` (children of `List` and `BlockQuote`
nodes, recursively) satisfy
`N.source_range.start <= C.source_range.start` and
`C.source_range.end <= N.source_range.end`. -/
theorem parse_range_containment (f : EvForest) (hw : wellRangedF f = true) :
    (parse (flattenF f)).all containedT = true := by
  obtain ⟨ns2, heq, hall⟩ := parse_events_wellRanged (flattenF f).length f le_rfl
    none [] none .nil rfl hw (startRangesInF_none f) rfl
  rw [List.append_nil] at heq
  show (parse_events (flattenF f) none .nil).1.all containedT = true
  rw [heq]
  exact all_containedT_of_goodUnder ns2 hall

/-- Witness for C2 at a concrete well-ranged stream. -/
theorem parse_range_containment_witness :
    wellRangedF quoteParaForest = true
  ∧ (parse (flattenF quoteParaForest)).all containedT = true :=
  ⟨rfl, parse_range_containment quoteParaForest rfl⟩

end Basalt
